import Mathlib

/-!
# ngp: result store, walker appends and pagination state machine

A shallow embedding of `src/ngp.c`.

Modelling conventions.

* A C string (NUL-terminated `char` array) is the list of its characters before
  the terminator.
* The 255-byte width of `entry_t.line` is modelled: `strcpy` of a longer string
  (the buffer of `parse_file` delivers up to 255 characters plus the terminator)
  runs on into `file` of the next slot, which starts right after `line` in
  memory (`entry_t` is two `char` arrays, 4096 + 255 bytes, without padding).
  Paths are taken to fit `file[PATH_MAX]`: the walker builds them in buffers
  of `PATH_MAX` bytes.
* `int` is `Int`; the values handled here (an entry count, a page size, a scroll
  offset) stay far from the limits of a machine `int`, so no wrap-around is
  modelled. C's `%` truncates toward zero and is `Int.tmod`.
* `data.entry` is a total map from indices to entries: the contents of memory at
  every index, appended or not. A read outside the appended range returns
  whatever the map holds there, so a theorem stated for every `data_t` holds
  for every possible content of the unused slots.
* The ncurses global `LINES` (the page size) is an explicit parameter.
* Drawing (`clear`, `refresh`, `display_entries`) changes no program state and
  is left out; locking is not modelled (each operation is taken atomically).
-/

namespace Ngp

/-! ## Data model -/

/-- A C string: the characters before the terminating NUL. -/
abbrev cstring := List Char

/-- `NAME_MAX` of `<limits.h>`: the width in bytes of `entry_t.line`. -/
def NAME_MAX : Nat := 255

/-- The record `entry_t`, as the contents of its two arrays. `file` is what
`file[PATH_MAX]` holds before its terminator. `line` is what `line[NAME_MAX]`
holds before its terminator, or all `NAME_MAX` bytes when the array holds no
terminator. A file marker has an empty `line`. -/
structure entry_t where
  file : cstring
  line : cstring
deriving DecidableEq

/-- The record `data_t`, restricted to the fields the modelled functions use
(`directory`, `pattern`, `options`, `file_type`, `data_mutex`, `status` are left out). -/
structure data_t where
  index : Int
  cursor : Int
  nbentry : Int
  size : Int
  raw : Int
  entry : Int → entry_t

/-- The store as `main` sets it up before the walker starts: `calloc` gives zeroed entries. -/
def data_init : data_t :=
  { index := 0, cursor := 0, nbentry := 0, size := 100, raw := 0,
    entry := fun _ => ⟨[], []⟩ }

/-- `is_file(index)`: 1 when the entry's `line` is the empty string, else 0. -/
def is_file (d : data_t) (index : Int) : Int :=
  if (d.entry index).line = [] then 1 else 0

/-- The C string read from `data.entry[index].line` (what `strcpy`, `strcmp` and
the display see): the content of the array when it holds a terminator; when all
`NAME_MAX` bytes are in use the read runs on into `file` of the next slot. -/
def entry_line (d : data_t) (index : Int) : cstring :=
  if (d.entry index).line.length < NAME_MAX then (d.entry index).line
  else (d.entry index).line ++ (d.entry (index + 1)).file

/-! ## Result store appends -/

/-- `check_alloc`: grow the capacity by 500 when the store is full. -/
def check_alloc (d : data_t) : data_t :=
  if d.nbentry ≥ d.size then { d with size := d.size + 500 } else d

/-- `ncurses_add_file`: append a file marker (path, empty line). -/
def ncurses_add_file (file : cstring) (d : data_t) : data_t :=
  let d := check_alloc d
  { d with
    entry := Function.update d.entry d.nbentry ⟨file, []⟩
    nbentry := d.nbentry + 1 }

/-- `ncurses_add_line`: append a matched line with its path. `strcpy` puts the
first `NAME_MAX` characters of `line` into the `line` array of slot `nbentry`;
from `NAME_MAX` characters on, what is left of `line` and the terminator land
at the start of `file` of slot `nbentry + 1`. -/
def ncurses_add_line (line : cstring) (file : cstring) (d : data_t) : data_t :=
  let d := check_alloc d
  let entry := Function.update d.entry d.nbentry ⟨file, line.take NAME_MAX⟩
  let entry :=
    if NAME_MAX ≤ line.length then
      Function.update entry (d.nbentry + 1)
        ⟨line.drop NAME_MAX, (entry (d.nbentry + 1)).line⟩
    else entry
  { d with
    entry := entry
    nbentry := d.nbentry + 1 }

/-! ## Navigator -/

/-- `page_up`. -/
def page_up (LINES : Int) (d : data_t) : data_t :=
  let cursor := if d.index = 0 then 0 else LINES - 1
  let index := d.index - LINES
  let index := if index < 0 then 0 else index
  let cursor := if is_file d (index + cursor) ≠ 0 ∧ index ≠ 0 then cursor - 1 else cursor
  { d with index := index, cursor := cursor }

/-- The local `max_index` of `page_down`. -/
def max_index (LINES : Int) (d : data_t) : Int :=
  if d.nbentry.tmod LINES = 0 then d.nbentry - LINES
  else d.nbentry - d.nbentry.tmod LINES

/-- `page_down`. -/
def page_down (LINES : Int) (d : data_t) : data_t :=
  let cursor := if d.index = max_index LINES d then (d.nbentry - 1).tmod LINES else 0
  let index := d.index + LINES
  let index := if index > max_index LINES d then max_index LINES d else index
  let cursor := if is_file d (index + cursor) ≠ 0 then cursor + 1 else cursor
  { d with index := index, cursor := cursor }

/-- `cursor_up`. -/
def cursor_up (LINES : Int) (d : data_t) : data_t :=
  if d.cursor = 0 then page_up LINES d
  else
    let cursor := if d.cursor > 0 then d.cursor - 1 else d.cursor
    let cursor := if is_file d (d.index + cursor) ≠ 0 then cursor - 1 else cursor
    if cursor < 0 then page_up LINES { d with cursor := cursor }
    else { d with cursor := cursor }

/-- `cursor_down`. -/
def cursor_down (LINES : Int) (d : data_t) : data_t :=
  if d.cursor = LINES - 1 then page_down LINES d
  else
    let cursor := if d.cursor + d.index < d.nbentry - 1 then d.cursor + 1 else d.cursor
    let cursor := if is_file d (d.index + cursor) ≠ 0 then cursor + 1 else cursor
    if cursor > LINES - 1 then page_down LINES { d with cursor := cursor }
    else { d with cursor := cursor }

/-- The four navigation keys handled by the loop of `main`. -/
inductive key_t where
  | CURSOR_DOWN
  | CURSOR_UP
  | PAGE_DOWN
  | PAGE_UP
deriving DecidableEq

/-- The navigation cases of the `switch` in `main`. -/
def dispatch (LINES : Int) (d : data_t) (ch : key_t) : data_t :=
  match ch with
  | key_t.CURSOR_DOWN => cursor_down LINES d
  | key_t.CURSOR_UP => cursor_up LINES d
  | key_t.PAGE_UP => page_up LINES d
  | key_t.PAGE_DOWN => page_down LINES d

/-! ## String helpers of the C library, as far as the program uses them -/

/-- `strtok`/`strtok_r` on the string at the saved position `s`: skip leading
delimiters; `none` (NULL) when nothing is left; otherwise the token up to the
next delimiter, and the new saved position just after that delimiter. -/
def strtok (s : cstring) (delim : cstring) : Option (cstring × cstring) :=
  match s.dropWhile (fun c => delim.contains c) with
  | [] => none
  | c :: t =>
    some ((c :: t).takeWhile (fun c => !delim.contains c),
          ((c :: t).dropWhile (fun c => !delim.contains c)).drop 1)

/-- `strncpy(dst, src, n)` read back as a string: `src` when it is shorter than
`n`; otherwise `dst` is left without terminator, which is `none`. -/
def strncpy (src : cstring) (n : Nat) : Option cstring :=
  if src.length < n then some src else none

/-- `strncat(dst, src, n)` into a buffer of `cap` bytes: appends at most `n`
characters of `src` and a terminator; `none` when that overruns the buffer. -/
def strncat (dst src : cstring) (n cap : Nat) : Option cstring :=
  if dst.length + (src.take n).length < cap then some (dst ++ src.take n) else none

/-! ## Walker -/

/-- `is_dir_good`. -/
def is_dir_good (dir : cstring) : Int :=
  if dir ≠ ".".toList ∧ dir ≠ "..".toList ∧ dir ≠ ".git".toList then 1 else 0

/-- The `while` loop of `sanitize_filename`; `fuel` bounds the number of
`strtok` calls, `saved` is strtok's saved position, `out` the local buffer. -/
def sanitize_loop : Nat → cstring → cstring → Option cstring
  | 0, _, _ => none
  | fuel + 1, saved, out =>
    match strtok saved [' '] with
    | none => some out
    | some (tok, saved') =>
      (strncat out "\\ ".toList 256 256).bind fun out =>
      (strncat out tok 256 256).bind fun out =>
      sanitize_loop fuel saved' out

/-- `sanitize_filename`: the new content of `file`. `none` stands for the runs
whose result C leaves undefined: no token at all (`out` is copied without ever
being written) or an overrun of `out[256]`. Every `strtok` call consumes at
least one character, so `file.length + 1` calls are enough. -/
def sanitize_filename (file : cstring) : Option cstring :=
  match strtok file [' '] with
  | none => none
  | some (tok, saved) =>
    (strncpy tok 256).bind fun out =>
    (sanitize_loop (file.length + 1) saved out).bind fun out =>
    strncpy out 256

/-- The cleanup in `parse_file` of a line ending in `\r\n`: when the character
two before the end is `\r` the line is cut there. For a one-character line the
C code looks at the byte before the buffer; the string is unchanged either way. -/
def strip_cr (line : cstring) : cstring :=
  if 2 ≤ line.length ∧ line.get? (line.length - 2) = some '\r' then
    line.take (line.length - 2)
  else line

/-- The `while (fgets ...)` loop of `parse_file` over the lines the matcher printed. -/
def parse_file_loop (file : cstring) : List cstring → Int → data_t → data_t
  | [], _, d => d
  | line :: rest, first, d =>
    let d := if first ≠ 0 then ncurses_add_file file d else d
    parse_file_loop file rest 0 (ncurses_add_line (strip_cr line) file d)

/-- `parse_file`: `f` is what `popen` of the matcher gave, `none` for a failed
`popen`, else the lines `fgets` returns in order (with `char line[256]` each
has at most 255 characters; a longer output line arrives in several pieces).
The `int` result is dropped (no caller reads it). -/
def parse_file (file : cstring) (f : Option (List cstring)) (d : data_t) : data_t :=
  match f with
  | none => d
  | some lines => parse_file_loop file lines 1 d

/-- `regex_langages`: each pattern `([/[:alnum:]]+\.EXT$)` is kept as its literal tail `.EXT`. -/
def regex_langages : List cstring :=
  [".c".toList, ".h".toList, ".cpp".toList, ".py".toList, ".sh".toList]

/-- `regexec` for a pattern of `regex_langages` (compiled with `REG_EXTENDED`,
not anchored on the left): 0 when `file` ends with one character of
`[/[:alnum:]]` followed by the tail, 1 (`REG_NOMATCH`) otherwise. -/
def regexec (tail : cstring) (file : cstring) : Int :=
  match file.reverse.drop tail.length with
  | [] => 1
  | c :: _ =>
    if file.reverse.take tail.length = tail.reverse ∧ (c = '/' ∨ c.isAlphanum = true) then 0
    else 1

/-- `lookup_file`, over any state `σ` on which `parse_file` acts; `raw` is
`data.raw`. In raw mode the file is parsed; otherwise it is parsed once for
every language pattern it matches. -/
def lookup_file {σ : Type} (parse_file : cstring → σ → σ) (raw : Int) (file : cstring)
    (s : σ) : σ :=
  if raw ≠ 0 then parse_file file s
  else
    regex_langages.foldl
      (fun s preg => if regexec preg file = 0 then parse_file file s else s) s

/-- The fields of `struct dirent` the walker reads. -/
structure dirent where
  d_type : Nat
  d_name : cstring

/-- `DT_DIR` of `<dirent.h>`. -/
def DT_DIR : Nat := 4

/-- `DT_REG` of `<dirent.h>`. -/
def DT_REG : Nat := 8

/-- The first `if` of the loop body of `lookup_directory` (the handling of a
directory entry that is not a directory). `is_simlink` is the answer of `lstat`;
`file_type` is `none` for a NULL pointer. `none` as a result stands for
undefined behaviour: `sanitize_filename` undefined, or a filter longer than the
name (the `strcmp` then starts before the name). -/
def lookup_directory_file {σ : Type} (parse_file : cstring → σ → σ) (raw : Int)
    (is_simlink : cstring → Int) (dir : cstring) (file_type : Option cstring)
    (ep : dirent) (s : σ) : Option σ :=
  if ep.d_type &&& DT_DIR = 0 ∧ is_dir_good ep.d_name ≠ 0 then
    let file_path := dir ++ '/' :: ep.d_name
    (if ' ' ∈ file_path then sanitize_filename file_path else some file_path).bind
      fun file_path =>
        if is_simlink file_path = 0 then
          match file_type with
          | some file_type =>
            if file_type.length ≤ ep.d_name.length then
              if file_type = ep.d_name.drop (ep.d_name.length - file_type.length) then
                some (lookup_file parse_file raw file_path s)
              else some s
            else none
          | none => some (lookup_file parse_file raw file_path s)
        else some s
  else some s

/-! ## Opener -/

/-- `remove_double_appearance`: the content of `final`. -/
def remove_double_appearance : cstring → Char → cstring
  | [], _ => []
  | [x], _ => [x]
  | x :: y :: rest, c =>
    if x ≠ c then x :: remove_double_appearance (y :: rest) c
    else if y = c then x :: remove_double_appearance rest c
    else x :: remove_double_appearance (y :: rest) c

/-- `extract_line_number`: the first token of `line` before a space or a colon. -/
def extract_line_number (line : cstring) : Option cstring :=
  (strtok line [' ', ':']).map Prod.fst

/-- `open_entry`: the state afterwards, and the three arguments substituted into
the editor template (line number, path, pattern). -/
def open_entry (index : Int) (pattern : cstring) (d : data_t) :
    data_t × (Option cstring × cstring × cstring) :=
  let line_copy := entry_line d index
  (d, (extract_line_number line_copy,
       remove_double_appearance (d.entry index).file '/', pattern))

/-! ## Operation sequences -/

/-- One operation on the shared state: a store append, a navigation key, or a selection. -/
inductive op_t where
  | add_file (file : cstring)
  | add_line (line file : cstring)
  | key (ch : key_t)
  | enter (pattern : cstring)

/-- Effect of one operation; `enter` opens the entry at `cursor + index` as `main` does. -/
def apply_op (LINES : Int) (d : data_t) (o : op_t) : data_t :=
  match o with
  | op_t.add_file file => ncurses_add_file file d
  | op_t.add_line line file => ncurses_add_line line file d
  | op_t.key ch => dispatch LINES d ch
  | op_t.enter pattern => (open_entry (d.cursor + d.index) pattern d).1

/-- Number of store appends in a sequence of operations. -/
def appends : List op_t → Int
  | [] => 0
  | op_t.add_file _ :: rest => appends rest + 1
  | op_t.add_line _ _ :: rest => appends rest + 1
  | _ :: rest => appends rest

/-! ## Specification-side notions -/

/-- The spec's `maxOffset`: `total - pageSize` when `total mod pageSize = 0`,
else `total - (total mod pageSize)`. -/
def maxOffset_spec (T P : Int) : Int :=
  if T % P = 0 then T - P else T - T % P

/-- Grouped shape of a store: it is non-empty, entry 0 is a file marker, the last
entry is a match line, and the entry after a file marker is a match line. -/
def grouped (d : data_t) : Prop :=
  1 ≤ d.nbentry ∧ is_file d 0 = 1 ∧ is_file d (d.nbentry - 1) = 0 ∧
  ∀ n : Nat, n < d.nbentry.toNat → is_file d n = 1 → is_file d (n + 1) = 0

instance (d : data_t) : Decidable (grouped d) := by
  unfold grouped
  infer_instance

/-- The stores the walker builds: `parse_file` run once per file, from the empty store. -/
def walk (runs : List (cstring × List cstring)) : data_t :=
  runs.foldl (fun d r => parse_file r.1 (some r.2) d) data_init


/-! ## Concrete stores used in the examples -/

/-- The store of the spec's pagination example:
`[Marker(a), Line(a:1), Line(a:2), Marker(b), Line(b:1)]`. -/
def store_two_files : data_t :=
  walk [("a".toList, ["1:x\n".toList, "2:y\n".toList]), ("b".toList, ["1:z\n".toList])]

/-- A store of six entries: one marker followed by five lines. -/
def store_six : data_t :=
  walk [("a".toList,
    ["1:p\n".toList, "2:q\n".toList, "3:r\n".toList, "4:s\n".toList, "5:t\n".toList])]

/-- The store `d` viewed at scroll offset `index` with the cursor on row `cursor`. -/
def at_view (d : data_t) (index cursor : Int) : data_t :=
  { d with index := index, cursor := cursor }

/-- The cursor after PageDown as the spec words it: decided by the landing
offset, then moved one row further when it addresses a file marker. -/
def page_down_cursor_spec (P : Int) (d : data_t) (landing : Int) : Int :=
  let c := if landing = maxOffset_spec d.nbentry P then (d.nbentry - 1) % P else 0
  if is_file d (landing + c) = 1 then c + 1 else c

/-- Every stored entry lies in a run that starts at a file marker `j`, carries
one path throughout and holds only match lines after the marker. -/
def run_inv (d : data_t) : Prop :=
  ∀ i, 0 ≤ i → i < d.nbentry →
    ∃ j, 0 ≤ j ∧ j ≤ i ∧ is_file d j = 1 ∧
      (∀ k, j ≤ k → k ≤ i → (d.entry k).file = (d.entry i).file) ∧
      (∀ k, j < k → k ≤ i → is_file d k = 0)

/-- A view that selects an existing entry: offset and cursor are not negative
and `offset + cursor` is below the count. -/
def view_selects (d : data_t) : Prop :=
  0 ≤ d.index ∧ 0 ≤ d.cursor ∧ d.index + d.cursor ≤ d.nbentry - 1

/-- The bounds on a view for page size `P`: the offset is a multiple of `P`
between 0 and `maxOffset`, the cursor is a row of the page, and the selected
index is below the count. -/
def view_ok (P : Int) (d : data_t) : Prop :=
  P ∣ d.index ∧ 0 ≤ d.index ∧ d.index ≤ maxOffset_spec d.nbentry P ∧
    0 ≤ d.cursor ∧ d.cursor ≤ P - 1 ∧ d.index + d.cursor ≤ d.nbentry - 1

/-- The selected entry exists and is a match line. -/
def on_match_line (d : data_t) : Prop :=
  0 ≤ d.index + d.cursor ∧ d.index + d.cursor < d.nbentry ∧
    is_file d (d.index + d.cursor) = 0

/-- Space escaping as the spec words it: every space becomes backslash-space,
nothing else changes. -/
def escape_spaces_spec : cstring → cstring
  | [] => []
  | c :: rest => if c = ' ' then '\\' :: ' ' :: escape_spaces_spec rest
                 else c :: escape_spaces_spec rest

/-- A `parse_file` that only records the path it is called with: the state is
the list of files handed to the matcher so far. -/
def record_parse_file (file : cstring) (log : List cstring) : List cstring :=
  log ++ [file]

/-- A store that is not of grouped shape: the matcher output of file `b` holds
the chunk `\r\n` (what `fgets` returns for the tail of a long CRLF line), which
the cleanup turns into an empty line, stored at index 3 right after the marker. -/
def store_blank_line : data_t :=
  walk [("a".toList, ["1:x\n".toList]), ("b".toList, ["\r\n".toList, "2:y\n".toList])]

/-- A piece of 255 characters, the most `fgets` returns into `char line[256]`:
the first piece of a matcher line `1:xxx…` longer than the buffer. -/
def long_piece : cstring := '1' :: ':' :: List.replicate 253 'x'

/-- The store after `parse_file` has read the 255-character piece for file `a`:
the marker at index 0 and the line at index 1. -/
def store_long_line : data_t :=
  walk [("a".toList, [long_piece])]

/-! ## Arithmetic of `max_index` -/

theorem max_index_eq_spec (P : Int) (d : data_t) (hP : 1 ≤ P) (hT : 0 ≤ d.nbentry) :
    max_index P d = maxOffset_spec d.nbentry P := by
  unfold max_index maxOffset_spec
  rw [Int.tmod_eq_emod hT (by omega)]

theorem maxOffset_spec_dvd (T P : Int) : P ∣ maxOffset_spec T P := by
  unfold maxOffset_spec
  split
  · next h => exact Int.dvd_sub (Int.dvd_of_emod_eq_zero h) (dvd_refl P)
  · exact ⟨T / P, by have := Int.emod_add_ediv T P; omega⟩

theorem maxOffset_spec_bounds (T P : Int) (hP : 1 ≤ P) (hT : 1 ≤ T) :
    0 ≤ maxOffset_spec T P ∧ maxOffset_spec T P + (T - 1) % P = T - 1 := by
  have hr0 : 0 ≤ T % P := Int.emod_nonneg T (by omega)
  have hrP : T % P < P := Int.emod_lt_of_pos T (by omega)
  have hdiv := Int.emod_add_ediv T P
  have hq : 0 ≤ P * (T / P) := mul_nonneg (by omega) (Int.ediv_nonneg (by omega) (by omega))
  unfold maxOffset_spec
  split
  · next h =>
    have hdvd : P ∣ T := Int.dvd_of_emod_eq_zero h
    have hle : P ≤ T := Int.le_of_dvd (by omega) hdvd
    have h1 : (T - 1) % P = P - 1 := by
      have e : T - 1 = (P - 1) + P * (T / P - 1) := by
        have : P * (T / P - 1) = P * (T / P) - P := by ring
        omega
      rw [e, Int.add_mul_emod_self_left]
      exact Int.emod_eq_of_lt (by omega) (by omega)
    rw [h1]
    omega
  · next h =>
    have h1 : (T - 1) % P = T % P - 1 := by
      have e : T - 1 = (T % P - 1) + P * (T / P) := by omega
      rw [e, Int.add_mul_emod_self_left]
      exact Int.emod_eq_of_lt (by omega) (by omega)
    rw [h1]
    omega

theorem dvd_step (P a b : Int) (hP : 1 ≤ P) (ha : P ∣ a) (hb : P ∣ b) (hlt : a < b) :
    a + P ≤ b := by
  obtain ⟨k, rfl⟩ := ha
  obtain ⟨m, rfl⟩ := hb
  have hkm : k < m := lt_of_mul_lt_mul_left hlt (by omega)
  have : P * (k + 1) ≤ P * m := Int.mul_le_mul_of_nonneg_left (by omega) (by omega)
  have e : P * (k + 1) = P * k + P := by ring
  omega

theorem is_file_cases (d : data_t) (i : Int) : is_file d i = 0 ∨ is_file d i = 1 := by
  unfold is_file
  split <;> simp

/-! ## PageDown and PageUp -/

theorem page_down_index (P : Int) (d : data_t) :
    (page_down P d).index
      = if d.index + P > max_index P d then max_index P d else d.index + P := rfl

/-- C4. For every page size `P ≥ 1` and every store (its count is not negative)
at any offset, `page_down` sets the offset to `min (offset + P) maxOffset`, with
`maxOffset` as the spec defines it. -/
theorem page_down_landing_offset (P : Int) (d : data_t) (hP : 1 ≤ P) (hT : 0 ≤ d.nbentry) :
    (page_down P d).index = min (d.index + P) (maxOffset_spec d.nbentry P) := by
  rw [← max_index_eq_spec P d hP hT, page_down_index]
  split
  · next h => exact (min_eq_right (le_of_lt h)).symm
  · next h => exact (min_eq_left (not_lt.mp h)).symm

/-- The spec's example for C4: page size 3, five entries, offset 0 gives
`maxOffset = 3`, landing offset 3 and cursor 1 (index 4). -/
theorem page_down_landing_offset_witness :
    (page_down 3 store_two_files).index
        = min (store_two_files.index + 3) (maxOffset_spec store_two_files.nbentry 3) ∧
      store_two_files.nbentry = 5 ∧ maxOffset_spec 5 3 = 3 ∧
      (page_down 3 store_two_files).index = 3 ∧ (page_down 3 store_two_files).cursor = 1 :=
  ⟨page_down_landing_offset 3 store_two_files (by decide) (by decide),
   by decide, by decide, by decide, by decide⟩

/-- C5 as stated fails: with page size 3 and the six-entry store at offset 0
(page-aligned, within `0 … maxOffset = 3`), `page_down` lands on offset 3, which
is `maxOffset`, and leaves the cursor on row 0, where the claimed rule gives
`(6 - 1) mod 3 = 2`. -/
theorem page_down_cursor_counterexample :
    1 ≤ store_six.nbentry ∧ (3 : Int) ∣ store_six.index ∧ 0 ≤ store_six.index ∧
      store_six.index ≤ maxOffset_spec store_six.nbentry 3 ∧
      (page_down 3 store_six).index = maxOffset_spec store_six.nbentry 3 ∧
      (page_down 3 store_six).cursor = 0 ∧
      page_down_cursor_spec 3 store_six (page_down 3 store_six).index = 2 := by
  refine ⟨by decide, ⟨0, by decide⟩, by decide, by decide, by decide, by decide, by decide⟩

/-- C5, amended. For every non-empty store and page size `P ≥ 1`, after
`page_down` the cursor is decided by the offset *before* the move: if that
offset equals `maxOffset` it is `(total - 1) mod P`, otherwise 0; and then, if
the entry at landing offset + cursor is a file marker, it is one more. -/
theorem page_down_cursor (P : Int) (d : data_t) (hP : 1 ≤ P) (hT : 1 ≤ d.nbentry) :
    (page_down P d).cursor =
      (if is_file d ((page_down P d).index
            + (if d.index = maxOffset_spec d.nbentry P then (d.nbentry - 1) % P else 0)) = 1
        then (if d.index = maxOffset_spec d.nbentry P then (d.nbentry - 1) % P else 0) + 1
        else (if d.index = maxOffset_spec d.nbentry P then (d.nbentry - 1) % P else 0)) := by
  rw [← max_index_eq_spec P d hP (by omega),
    ← Int.tmod_eq_emod (show 0 ≤ d.nbentry - 1 by omega) (show 0 ≤ P by omega)]
  rcases is_file_cases d ((page_down P d).index
      + (if d.index = max_index P d then (d.nbentry - 1).tmod P else 0)) with h | h
  · rw [h]
    simp only [page_down] at h ⊢
    rw [h]
    simp
  · rw [h]
    simp only [page_down] at h ⊢
    rw [h]
    simp

/-- Witness for `page_down_cursor`: the six-entry store, page size 3, offset 0. -/
theorem page_down_cursor_witness :
    (page_down 3 store_six).cursor =
      (if is_file store_six ((page_down 3 store_six).index
            + (if store_six.index = maxOffset_spec store_six.nbentry 3
                then (store_six.nbentry - 1) % 3 else 0)) = 1
        then (if store_six.index = maxOffset_spec store_six.nbentry 3
                then (store_six.nbentry - 1) % 3 else 0) + 1
        else (if store_six.index = maxOffset_spec store_six.nbentry 3
                then (store_six.nbentry - 1) % 3 else 0)) :=
  page_down_cursor 3 store_six (by decide) (by decide)

/-- C7. For every store (count not negative), page size `P ≥ 1` and page-aligned
offset with `0 ≤ offset < maxOffset`, whatever the cursor, `page_down` followed
by `page_up` gives back the original offset. -/
theorem pagination_round_trip (P : Int) (d : data_t) (hP : 1 ≤ P) (hT : 0 ≤ d.nbentry)
    (hal : P ∣ d.index) (h0 : 0 ≤ d.index) (hlt : d.index < maxOffset_spec d.nbentry P) :
    (page_up P (page_down P d)).index = d.index := by
  have hstep := dvd_step P d.index _ hP hal (maxOffset_spec_dvd d.nbentry P) hlt
  have hdown : (page_down P d).index = d.index + P := by
    rw [page_down_index, max_index_eq_spec P d hP hT, if_neg (by omega)]
  show (if (page_down P d).index - P < 0 then 0 else (page_down P d).index - P) = d.index
  rw [hdown]
  split <;> omega

/-- Witness for `pagination_round_trip`: the six-entry store, page size 3, offset 0. -/
theorem pagination_round_trip_witness :
    (page_up 3 (page_down 3 store_six)).index = store_six.index :=
  pagination_round_trip 3 store_six (by decide) (by decide) ⟨0, by decide⟩ (by decide)
    (by decide)

/-! ## Result store: appends -/

theorem check_alloc_nbentry (d : data_t) : (check_alloc d).nbentry = d.nbentry := by
  unfold check_alloc
  split <;> rfl

theorem check_alloc_entry (d : data_t) : (check_alloc d).entry = d.entry := by
  unfold check_alloc
  split <;> rfl

theorem ncurses_add_file_nbentry (file : cstring) (d : data_t) :
    (ncurses_add_file file d).nbentry = d.nbentry + 1 := by
  simp [ncurses_add_file, check_alloc_nbentry]

theorem ncurses_add_file_entry_lt (file : cstring) (d : data_t) (k : Int)
    (hk : k < d.nbentry) : (ncurses_add_file file d).entry k = d.entry k := by
  simp only [ncurses_add_file, check_alloc_nbentry, check_alloc_entry]
  exact Function.update_noteq (by omega) _ _

theorem ncurses_add_file_entry_last (file : cstring) (d : data_t) :
    (ncurses_add_file file d).entry d.nbentry = ⟨file, []⟩ := by
  simp only [ncurses_add_file, check_alloc_nbentry, check_alloc_entry]
  exact Function.update_same _ _ _

theorem ncurses_add_line_nbentry (line file : cstring) (d : data_t) :
    (ncurses_add_line line file d).nbentry = d.nbentry + 1 := by
  simp [ncurses_add_line, check_alloc_nbentry]

theorem ncurses_add_line_entry_lt (line file : cstring) (d : data_t) (k : Int)
    (hk : k < d.nbentry) : (ncurses_add_line line file d).entry k = d.entry k := by
  simp only [ncurses_add_line, check_alloc_nbentry, check_alloc_entry]
  split
  · rw [Function.update_noteq (by omega), Function.update_noteq (by omega)]
  · exact Function.update_noteq (by omega) _ _

theorem ncurses_add_line_entry_last (line file : cstring) (d : data_t) :
    (ncurses_add_line line file d).entry d.nbentry = ⟨file, line.take NAME_MAX⟩ := by
  simp only [ncurses_add_line, check_alloc_nbentry, check_alloc_entry]
  split
  · rw [Function.update_noteq (by omega), Function.update_same]
  · exact Function.update_same _ _ _

/-! ## Navigation leaves the store alone -/

theorem page_up_store (P : Int) (d : data_t) :
    (page_up P d).nbentry = d.nbentry ∧ (page_up P d).entry = d.entry := ⟨rfl, rfl⟩

theorem page_down_store (P : Int) (d : data_t) :
    (page_down P d).nbentry = d.nbentry ∧ (page_down P d).entry = d.entry := ⟨rfl, rfl⟩

theorem cursor_up_store (P : Int) (d : data_t) :
    (cursor_up P d).nbentry = d.nbentry ∧ (cursor_up P d).entry = d.entry := by
  unfold cursor_up
  dsimp only
  split_ifs <;> exact ⟨rfl, rfl⟩

theorem cursor_down_store (P : Int) (d : data_t) :
    (cursor_down P d).nbentry = d.nbentry ∧ (cursor_down P d).entry = d.entry := by
  unfold cursor_down
  dsimp only
  split_ifs <;> exact ⟨rfl, rfl⟩

theorem dispatch_store (P : Int) (d : data_t) (ch : key_t) :
    (dispatch P d ch).nbentry = d.nbentry ∧ (dispatch P d ch).entry = d.entry := by
  cases ch
  · exact cursor_down_store P d
  · exact cursor_up_store P d
  · exact page_down_store P d
  · exact page_up_store P d

theorem appends_nonneg (ops : List op_t) : 0 ≤ appends ops := by
  induction ops with
  | nil => simp [appends]
  | cons o rest ih => cases o <;> simp [appends] <;> omega

theorem apply_op_nbentry (P : Int) (d : data_t) (o : op_t) :
    (apply_op P d o).nbentry = d.nbentry + appends [o] := by
  cases o with
  | add_file file => simp [apply_op, appends, ncurses_add_file_nbentry]
  | add_line line file => simp [apply_op, appends, ncurses_add_line_nbentry]
  | key ch => simp [apply_op, appends, (dispatch_store P d ch).1]
  | enter pattern => simp [apply_op, appends, open_entry]

theorem apply_op_entry (P : Int) (d : data_t) (o : op_t) (i : Int) (hi : i < d.nbentry) :
    (apply_op P d o).entry i = d.entry i := by
  cases o with
  | add_file file => exact ncurses_add_file_entry_lt file d i hi
  | add_line line file => exact ncurses_add_line_entry_lt line file d i hi
  | key ch => simp [apply_op, (dispatch_store P d ch).2]
  | enter pattern => simp [apply_op, open_entry]

theorem apply_op_entry_of_no_append (P : Int) (d : data_t) (o : op_t)
    (h : appends [o] = 0) : (apply_op P d o).entry = d.entry := by
  cases o with
  | add_file file => simp [appends] at h
  | add_line line file => simp [appends] at h
  | key ch => simp [apply_op, (dispatch_store P d ch).2]
  | enter pattern => simp [apply_op, open_entry]

theorem appends_cons (o : op_t) (rest : List op_t) :
    appends (o :: rest) = appends [o] + appends rest := by
  cases o <;> simp [appends] <;> omega

/-- What holds of the append-only property. After any sequence of operations
the count is the old count plus the number of appends (each append adds exactly
one, nothing else changes the count); the two arrays of every entry below the
old count keep their bytes, so its path is unchanged, and so is the line string
of every entry that is not the last one; a sequence without appends leaves the
whole entry map as it was. The line string of the last entry is not covered: it
can run on into the next slot (see `stored_line_changes_on_append`). -/
theorem appends_keep_arrays (LINES : Int) (ops : List op_t) (d : data_t) :
    (ops.foldl (apply_op LINES) d).nbentry = d.nbentry + appends ops ∧
      0 ≤ appends ops ∧
      (∀ i, i < d.nbentry → (ops.foldl (apply_op LINES) d).entry i = d.entry i) ∧
      (∀ i, i + 1 < d.nbentry →
        entry_line (ops.foldl (apply_op LINES) d) i = entry_line d i) ∧
      (appends ops = 0 → (ops.foldl (apply_op LINES) d).entry = d.entry) := by
  have main : ∀ (ops : List op_t) (d : data_t),
      (ops.foldl (apply_op LINES) d).nbentry = d.nbentry + appends ops ∧
      (∀ i, i < d.nbentry → (ops.foldl (apply_op LINES) d).entry i = d.entry i) ∧
      (appends ops = 0 → (ops.foldl (apply_op LINES) d).entry = d.entry) := by
    intro ops
    induction ops with
    | nil => intro d; simp [appends]
    | cons o rest ih =>
      intro d
      obtain ⟨h1, h3, h4⟩ := ih (apply_op LINES d o)
      have hn := apply_op_nbentry LINES d o
      have h0 := appends_nonneg [o]
      have hr := appends_nonneg rest
      have hc := appends_cons o rest
      refine ⟨?_, ?_, ?_⟩
      · rw [List.foldl_cons, h1, hn, hc]; omega
      · intro i hi
        rw [List.foldl_cons, h3 i (by omega)]
        exact apply_op_entry LINES d o i hi
      · intro hz
        rw [List.foldl_cons, h4 (by omega)]
        exact apply_op_entry_of_no_append LINES d o (by omega)
  obtain ⟨h1, h3, h4⟩ := main ops d
  refine ⟨h1, appends_nonneg _, h3, ?_, h4⟩
  intro i hi
  unfold entry_line
  rw [h3 i (by omega), h3 (i + 1) hi]

set_option maxRecDepth 100000 in
/-- C3, evaluated on the code: an already stored line changes on a later
append. `parse_file` reads a piece of 255 characters for file `a` (the start of
a matcher line longer than its buffer); the store then holds two entries and
the line read at index 1 is that piece. `line[NAME_MAX]` has 255 bytes, so the
terminator sits in `file[0]` of slot 2. The next append, of the rest of the
line or of the marker of another file, writes its path there: the count goes
to 3 and the line read at index 1, below the old count 2, now ends with that
path. -/
theorem stored_line_changes_on_append :
    long_piece.length = 255 ∧
      store_long_line.nbentry = 2 ∧
      entry_line store_long_line 1 = long_piece ∧
      (ncurses_add_line "yy\n".toList "a".toList store_long_line).nbentry = 3 ∧
      entry_line (ncurses_add_line "yy\n".toList "a".toList store_long_line) 1
        = long_piece ++ "a".toList ∧
      entry_line (ncurses_add_file "b".toList store_long_line) 1
        = long_piece ++ "b".toList ∧
      entry_line (walk [("a".toList, [long_piece, "yy\n".toList])]) 1
        = long_piece ++ "a".toList := by
  decide

/-! ## Walker: the grouping invariant -/

theorem is_file_of_entry_eq (d d' : data_t) (k : Int) (h : d'.entry k = d.entry k) :
    is_file d' k = is_file d k := by
  unfold is_file
  rw [h]

theorem run_inv_old (d d' : data_t)
    (hlt : ∀ k, k < d.nbentry → d'.entry k = d.entry k) (hinv : run_inv d)
    (i : Int) (h0 : 0 ≤ i) (hi : i < d.nbentry) :
    ∃ j, 0 ≤ j ∧ j ≤ i ∧ is_file d' j = 1 ∧
      (∀ k, j ≤ k → k ≤ i → (d'.entry k).file = (d'.entry i).file) ∧
      (∀ k, j < k → k ≤ i → is_file d' k = 0) := by
  obtain ⟨j, hj0, hji, hjm, hfile, hline⟩ := hinv i h0 hi
  refine ⟨j, hj0, hji, ?_, ?_, ?_⟩
  · rw [is_file_of_entry_eq d d' j (hlt j (by omega))]; exact hjm
  · intro k hjk hki
    rw [hlt k (by omega), hlt i hi]
    exact hfile k hjk hki
  · intro k hjk hki
    rw [is_file_of_entry_eq d d' k (hlt k (by omega))]
    exact hline k hjk hki

theorem run_inv_append_marker (d d' : data_t) (e : entry_t)
    (hn : d'.nbentry = d.nbentry + 1)
    (hlt : ∀ k, k < d.nbentry → d'.entry k = d.entry k)
    (hnew : d'.entry d.nbentry = e)
    (hT : 0 ≤ d.nbentry) (hinv : run_inv d) (hm : e.line = []) : run_inv d' := by
  intro i h0 hi
  by_cases hlti : i < d.nbentry
  · exact run_inv_old d d' hlt hinv i h0 hlti
  · have hin : i = d.nbentry := by omega
    subst hin
    refine ⟨d.nbentry, hT, le_refl _, ?_, ?_, ?_⟩
    · unfold is_file
      rw [hnew, hm]
      simp
    · intro k h1 h2
      have : k = d.nbentry := by omega
      rw [this]
    · intro k h1 h2
      omega

theorem run_inv_append_line (d d' : data_t) (e : entry_t)
    (hn : d'.nbentry = d.nbentry + 1)
    (hlt : ∀ k, k < d.nbentry → d'.entry k = d.entry k)
    (hnew : d'.entry d.nbentry = e)
    (hinv : run_inv d) (hpos : 0 < d.nbentry)
    (hlast : (d.entry (d.nbentry - 1)).file = e.file) (hl : e.line ≠ []) : run_inv d' := by
  intro i h0 hi
  by_cases hlti : i < d.nbentry
  · exact run_inv_old d d' hlt hinv i h0 hlti
  · have hin : i = d.nbentry := by omega
    subst hin
    obtain ⟨j, hj0, hji, hjm, hfile, hline⟩ :=
      hinv (d.nbentry - 1) (by omega) (by omega)
    refine ⟨j, hj0, by omega, ?_, ?_, ?_⟩
    · rw [is_file_of_entry_eq d d' j (hlt j (by omega))]; exact hjm
    · intro k hjk hki
      rw [hnew]
      by_cases hk : k = d.nbentry
      · rw [hk, hnew]
      · rw [hlt k (by omega), hfile k hjk (by omega), hlast]
    · intro k hjk hki
      by_cases hk : k = d.nbentry
      · unfold is_file
        rw [hk, hnew, if_neg hl]
      · rw [is_file_of_entry_eq d d' k (hlt k (by omega))]
        exact hline k hjk (by omega)

theorem parse_file_loop_inv (file : cstring) (lines : List cstring)
    (hne : ∀ l ∈ lines, strip_cr l ≠ []) (first : Int) (d : data_t)
    (hT : 0 ≤ d.nbentry) (hinv : run_inv d)
    (hfirst : first = 0 → 0 < d.nbentry ∧ (d.entry (d.nbentry - 1)).file = file) :
    0 ≤ (parse_file_loop file lines first d).nbentry ∧
      run_inv (parse_file_loop file lines first d) := by
  induction lines generalizing first d with
  | nil => exact ⟨hT, hinv⟩
  | cons line rest ih =>
    unfold parse_file_loop
    have hmark : 0 ≤ (if first ≠ 0 then ncurses_add_file file d else d).nbentry ∧
        run_inv (if first ≠ 0 then ncurses_add_file file d else d) ∧
        0 < (if first ≠ 0 then ncurses_add_file file d else d).nbentry ∧
        ((if first ≠ 0 then ncurses_add_file file d else d).entry
          ((if first ≠ 0 then ncurses_add_file file d else d).nbentry - 1)).file = file := by
      by_cases hf : first = 0
      · rw [if_neg (by simpa using hf)]
        exact ⟨hT, hinv, (hfirst hf).1, (hfirst hf).2⟩
      · rw [if_pos hf]
        have hn := ncurses_add_file_nbentry file d
        have hnew := ncurses_add_file_entry_last file d
        refine ⟨by omega,
          run_inv_append_marker d _ _ hn (ncurses_add_file_entry_lt file d) hnew hT hinv rfl,
          by omega, ?_⟩
        rw [hn, show d.nbentry + 1 - 1 = d.nbentry by omega, hnew]
    obtain ⟨h1, h2, h3, h4⟩ := hmark
    have hn := ncurses_add_line_nbentry (strip_cr line) file
      (if first ≠ 0 then ncurses_add_file file d else d)
    have hnew := ncurses_add_line_entry_last (strip_cr line) file
      (if first ≠ 0 then ncurses_add_file file d else d)
    have hl : (strip_cr line).take NAME_MAX ≠ [] := by
      have hs := hne line (List.mem_cons_self _ _)
      cases hc : strip_cr line with
      | nil => exact absurd hc hs
      | cons c t => simp [NAME_MAX]
    apply ih (fun l hl => hne l (List.mem_cons_of_mem _ hl))
    · omega
    · exact run_inv_append_line _ _ _ hn
        (ncurses_add_line_entry_lt (strip_cr line) file _) hnew h2 h3 h4 hl
    · intro _
      refine ⟨by omega, ?_⟩
      rw [hn, show ∀ x : Int, x + 1 - 1 = x by intro x; omega, hnew]

theorem walk_inv_from (runs : List (cstring × List cstring))
    (hne : ∀ r ∈ runs, ∀ l ∈ r.2, strip_cr l ≠ []) (d : data_t)
    (hT : 0 ≤ d.nbentry) (hinv : run_inv d) :
    run_inv (runs.foldl (fun d r => parse_file r.1 (some r.2) d) d) := by
  induction runs generalizing d with
  | nil => exact hinv
  | cons r rest ih =>
    rw [List.foldl_cons]
    have hstep := parse_file_loop_inv r.1 r.2 (hne r (List.mem_cons_self _ _)) 1 d hT hinv
      (by intro h; omega)
    exact ih (fun r' hr' => hne r' (List.mem_cons_of_mem _ hr')) _ hstep.1 hstep.2

/-- C2. For every sequence of per-file appends (`parse_file` run once per file
on that file's matcher lines, each non-empty after the carriage-return
cleanup) from the empty store: every stored index `i`, so in particular every
index holding a match line, has some `j ≤ i` holding a file marker with the
same path; every entry with index in `[j, i]` carries that path, and the
entries after `j` up to `i` are match lines. -/
theorem grouping_invariant (runs : List (cstring × List cstring))
    (hne : ∀ r ∈ runs, ∀ l ∈ r.2, strip_cr l ≠ [])
    (i : Int) (h0 : 0 ≤ i) (hi : i < (walk runs).nbentry) :
    ∃ j, 0 ≤ j ∧ j ≤ i ∧ is_file (walk runs) j = 1 ∧
      ((walk runs).entry j).file = ((walk runs).entry i).file ∧
      (∀ k, j ≤ k → k ≤ i → ((walk runs).entry k).file = ((walk runs).entry i).file) ∧
      (∀ k, j < k → k ≤ i → is_file (walk runs) k = 0) := by
  have hinv : run_inv (walk runs) :=
    walk_inv_from runs hne data_init (by decide) (by intro i h0 hi; exact absurd hi (by
      show ¬ i < 0
      omega))
  obtain ⟨j, hj0, hji, hjm, hfile, hlines⟩ := hinv i h0 hi
  exact ⟨j, hj0, hji, hjm, hfile j (le_refl _) hji, hfile, hlines⟩

/-- Witness for `grouping_invariant`: two files, the second with a `\r\n` line;
index 4 holds the line of file `b`. -/
theorem grouping_invariant_witness :
    ∃ j, 0 ≤ j ∧ j ≤ 4 ∧ is_file store_two_files j = 1 ∧
      (store_two_files.entry j).file = (store_two_files.entry 4).file ∧
      (∀ k, j ≤ k → k ≤ 4 → (store_two_files.entry k).file = (store_two_files.entry 4).file) ∧
      (∀ k, j < k → k ≤ 4 → is_file store_two_files k = 0) :=
  grouping_invariant
    [("a".toList, ["1:x\n".toList, "2:y\n".toList]), ("b".toList, ["1:z\n".toList])]
    (by decide) 4 (by decide) (by decide)

/-! ## Navigator on grouped stores -/

theorem grouped_next (d : data_t) (hg : grouped d) (i : Int) (h0 : 0 ≤ i)
    (hi : i < d.nbentry) (hm : is_file d i = 1) :
    i + 1 < d.nbentry ∧ is_file d (i + 1) = 0 := by
  obtain ⟨_, _, hlast, hnext⟩ := hg
  have hcast : ((i.toNat : Nat) : Int) = i := Int.toNat_of_nonneg h0
  have h := hnext i.toNat (by omega) (by rw [hcast]; exact hm)
  rw [hcast] at h
  refine ⟨?_, h⟩
  by_contra hge
  have : i = d.nbentry - 1 := by omega
  rw [this] at hm
  omega

theorem grouped_prev (d : data_t) (hg : grouped d) (i : Int) (h0 : 1 ≤ i)
    (hi : i < d.nbentry) (hm : is_file d i = 1) : is_file d (i - 1) = 0 := by
  rcases is_file_cases d (i - 1) with h | h
  · exact h
  · have := (grouped_next d hg (i - 1) (by omega) (by omega) h).2
    rw [show i - 1 + 1 = i by omega] at this
    omega

theorem grouped_congr (d d' : data_t) (hn : d'.nbentry = d.nbentry)
    (he : d'.entry = d.entry) (hg : grouped d) : grouped d' := by
  unfold grouped is_file at *
  rw [hn, he]
  exact hg

theorem max_index_facts (P : Int) (d : data_t) (hP : 1 ≤ P) (hT : 1 ≤ d.nbentry) :
    P ∣ max_index P d ∧ 0 ≤ max_index P d ∧ max_index P d ≤ d.nbentry - 1 ∧
      0 ≤ (d.nbentry - 1).tmod P ∧ (d.nbentry - 1).tmod P ≤ P - 1 ∧
      max_index P d + (d.nbentry - 1).tmod P = d.nbentry - 1 := by
  rw [max_index_eq_spec P d hP (by omega),
    Int.tmod_eq_emod (show 0 ≤ d.nbentry - 1 by omega) (show 0 ≤ P by omega)]
  have hb := maxOffset_spec_bounds d.nbentry P hP hT
  have hr0 : 0 ≤ (d.nbentry - 1) % P := Int.emod_nonneg _ (by omega)
  have hrP : (d.nbentry - 1) % P < P := Int.emod_lt_of_pos _ (by omega)
  exact ⟨maxOffset_spec_dvd _ _, hb.1, by omega, hr0, by omega, hb.2⟩

theorem page_down_lands (P : Int) (d : data_t) (hg : grouped d) (hP : 1 ≤ P)
    (h0 : 0 ≤ d.index) :
    on_match_line (page_down P d) ∧ 0 ≤ (page_down P d).cursor ∧
      (2 ≤ P → (page_down P d).cursor ≤ P - 1) ∧
      0 ≤ (page_down P d).index ∧ (page_down P d).index ≤ max_index P d ∧
      ((page_down P d).index = d.index + P ∨ (page_down P d).index = max_index P d) := by
  obtain ⟨hdvd, hM0, hMT, hr0, hrP, hsum⟩ := max_index_facts P d hP hg.1
  have hlast := hg.2.2.1
  unfold on_match_line
  simp only [page_down]
  by_cases hidx : d.index = max_index P d
  · have hI : (if d.index + P > max_index P d then max_index P d else d.index + P)
        = max_index P d := by rw [if_pos (by omega)]
    rw [hI, if_pos hidx, hsum, hlast]
    simp only [ne_eq, not_true_eq_false, if_false]
    rw [hsum]
    exact ⟨⟨by omega, by omega, hlast⟩, hr0, fun _ => hrP, hM0, le_refl _, Or.inr trivial⟩
  · rw [if_neg hidx]
    generalize hI : (if d.index + P > max_index P d then max_index P d else d.index + P) = I
    have hI0 : 0 ≤ I ∧ I ≤ max_index P d ∧ (I = d.index + P ∨ I = max_index P d) := by
      rw [← hI]; split <;> omega
    rcases is_file_cases d (I + 0) with h | h
    · rw [h]
      simp only [ne_eq, not_true_eq_false, if_false]
      exact ⟨⟨by omega, by omega, h⟩, le_refl _, fun _ => by omega, hI0.1, hI0.2.1, hI0.2.2⟩
    · rw [h]
      simp only [ne_eq, one_ne_zero, not_false_eq_true, if_true]
      rw [Int.add_zero] at h
      have hn := grouped_next d hg I hI0.1 (by omega) h
      exact ⟨⟨by omega, by omega, hn.2⟩, by omega, fun _ => by omega, hI0.1, hI0.2.1, hI0.2.2⟩



theorem page_up_lands (P : Int) (d : data_t) (hg : grouped d) (hP : 1 ≤ P)
    (h0 : 0 ≤ d.index) (hT : d.index ≤ d.nbentry - 1) :
    on_match_line (page_up P d) ∨
      ((page_up P d).index = 0 ∧ ((page_up P d).cursor = 0 ∨ (page_up P d).cursor = P - 1)) := by
  unfold on_match_line
  simp only [page_up]
  by_cases hidx : d.index = 0
  · right
    rw [if_pos hidx, if_pos (by omega : d.index - P < 0)]
    simp
  · rw [if_neg hidx]
    by_cases hneg : d.index - P ≤ 0
    · right
      have hI : (if d.index - P < 0 then 0 else d.index - P) = 0 := by split <;> omega
      rw [hI]
      simp
    · rw [if_neg (by omega : ¬ d.index - P < 0)]
      left
      have hsel : d.index - P + (P - 1) = d.index - 1 := by omega
      rw [hsel]
      rcases is_file_cases d (d.index - 1) with h | h
      · rw [h]
        simp only [ne_eq, not_true_eq_false, false_and, if_false]
        rw [hsel]
        exact ⟨by omega, by omega, h⟩
      · rw [h, if_pos ⟨by omega, by omega⟩]
        have hp := grouped_prev d hg (d.index - 1) (by omega) (by omega) h
        rw [show d.index - P + (P - 1 - 1) = d.index - 1 - 1 by omega]
        exact ⟨by omega, by omega, hp⟩

theorem cursor_down_lands (P : Int) (d : data_t) (hg : grouped d) (hP : 1 ≤ P)
    (hv : view_selects d) : on_match_line (cursor_down P d) := by
  obtain ⟨h0, hc0, hsel⟩ := hv
  unfold cursor_down
  by_cases hbot : d.cursor = P - 1
  · rw [if_pos hbot]
    exact (page_down_lands P d hg hP h0).1
  · rw [if_neg hbot]
    dsimp only
    generalize hc1 : (if d.cursor + d.index < d.nbentry - 1 then d.cursor + 1 else d.cursor) = c1
    have hb1 : 0 ≤ c1 ∧ d.index + c1 ≤ d.nbentry - 1 := by
      rw [← hc1]; split <;> omega
    rcases is_file_cases d (d.index + c1) with h | h
    · rw [h]
      simp only [ne_eq, not_true_eq_false, if_false]
      split
      · exact (page_down_lands P _ (grouped_congr d _ rfl rfl hg) hP h0).1
      · exact ⟨by show 0 ≤ d.index + c1; omega, by show d.index + c1 < d.nbentry; omega, h⟩
    · rw [h]
      simp only [ne_eq, one_ne_zero, not_false_eq_true, if_true]
      have hn := grouped_next d hg (d.index + c1) (by omega) (by omega) h
      split
      · exact (page_down_lands P _ (grouped_congr d _ rfl rfl hg) hP h0).1
      · exact ⟨by show 0 ≤ d.index + (c1 + 1); omega,
          by show d.index + (c1 + 1) < d.nbentry; omega,
          by show is_file d (d.index + (c1 + 1)) = 0
             rw [← Int.add_assoc]; exact hn.2⟩

theorem cursor_up_lands (P : Int) (d : data_t) (hg : grouped d) (hP : 1 ≤ P)
    (hv : view_selects d) :
    on_match_line (cursor_up P d) ∨
      ((cursor_up P d).index = 0 ∧
        ((cursor_up P d).cursor = 0 ∨ (cursor_up P d).cursor = P - 1)) := by
  obtain ⟨h0, hc0, hsel⟩ := hv
  unfold cursor_up
  by_cases htop : d.cursor = 0
  · rw [if_pos htop]
    exact page_up_lands P d hg hP h0 (by omega)
  · rw [if_neg htop]
    dsimp only
    rw [if_pos (by omega : d.cursor > 0)]
    rcases is_file_cases d (d.index + (d.cursor - 1)) with h | h
    · rw [h]
      simp only [ne_eq, not_true_eq_false, if_false]
      rw [if_neg (by omega)]
      left
      exact ⟨by show 0 ≤ d.index + (d.cursor - 1); omega,
        by show d.index + (d.cursor - 1) < d.nbentry; omega, h⟩
    · rw [h]
      simp only [ne_eq, one_ne_zero, not_false_eq_true, if_true]
      split
      · exact page_up_lands P _ (grouped_congr d _ rfl rfl hg) hP h0 (by
          show d.index ≤ d.nbentry - 1
          omega)
      · next hge =>
        left
        have hp := grouped_prev d hg (d.index + (d.cursor - 1)) (by omega) (by omega) h
        exact ⟨by show 0 ≤ d.index + (d.cursor - 1 - 1); omega,
          by show d.index + (d.cursor - 1 - 1) < d.nbentry; omega,
          by show is_file d (d.index + (d.cursor - 1 - 1)) = 0
             rw [show d.index + (d.cursor - 1 - 1) = d.index + (d.cursor - 1) - 1 by omega]
             exact hp⟩

/-- C1 as stated fails. (a) The five-entry store holds match lines, yet with
page size 3 and the cursor on row 1 of the first page both `page_up` and
`cursor_up` leave the cursor on index 0, the first file marker. (b) From a view
that selects no entry (offset 0, cursor 7, page size 10, five entries)
`cursor_down` ends on index 8, beyond the store. (c) On a store that is not of
grouped shape (an empty line stored at index 3 after the marker at index 2),
with page size 5, `cursor_down` from row 1 ends on index 3, where `is_file` is 1. -/
theorem cursor_never_on_marker_counterexample :
    (is_file store_two_files 1 = 0 ∧
      (page_up 3 (at_view store_two_files 0 1)).index
          + (page_up 3 (at_view store_two_files 0 1)).cursor = 0 ∧
      (cursor_up 3 (at_view store_two_files 0 1)).index
          + (cursor_up 3 (at_view store_two_files 0 1)).cursor = 0 ∧
      is_file store_two_files 0 = 1) ∧
    ((cursor_down 10 (at_view store_two_files 0 7)).index
          + (cursor_down 10 (at_view store_two_files 0 7)).cursor = 8 ∧
      store_two_files.nbentry = 5 ∧ is_file store_two_files 8 = 1) ∧
    (is_file store_blank_line 1 = 0 ∧
      (cursor_down 5 (at_view store_blank_line 0 1)).index
          + (cursor_down 5 (at_view store_blank_line 0 1)).cursor = 3 ∧
      store_blank_line.nbentry = 5 ∧ is_file store_blank_line 3 = 1) := by
  decide

/-- C1, amended. For every store of grouped shape, every page size `P ≥ 1` and
every view that selects an existing entry (offset and cursor not negative,
offset + cursor below the count): after `cursor_down` or `page_down` the entry
at offset + cursor is a match line; after `cursor_up` or `page_up` it is a
match line except possibly when the operation ends on offset 0 with the cursor
on row 0 or row `P - 1`, where `page_up` applies no marker correction. -/
theorem cursor_on_match_line (P : Int) (d : data_t) (ch : key_t) (hg : grouped d)
    (hP : 1 ≤ P) (hv : view_selects d) :
    on_match_line (dispatch P d ch) ∨
      ((ch = key_t.CURSOR_UP ∨ ch = key_t.PAGE_UP) ∧ (dispatch P d ch).index = 0 ∧
        ((dispatch P d ch).cursor = 0 ∨ (dispatch P d ch).cursor = P - 1)) := by
  cases ch with
  | CURSOR_DOWN => exact Or.inl (cursor_down_lands P d hg hP hv)
  | PAGE_DOWN => exact Or.inl (page_down_lands P d hg hP hv.1).1
  | CURSOR_UP =>
    rcases cursor_up_lands P d hg hP hv with h | h
    · exact Or.inl h
    · exact Or.inr ⟨Or.inl rfl, h⟩
  | PAGE_UP =>
    rcases page_up_lands P d hg hP hv.1 (by have := hv.2; omega) with h | h
    · exact Or.inl h
    · exact Or.inr ⟨Or.inr rfl, h⟩

/-- Witness for `cursor_on_match_line`: the five-entry store, page size 3, the
cursor on row 2 of the first page, key `CURSOR_DOWN`. -/
theorem cursor_on_match_line_witness :
    on_match_line (dispatch 3 (at_view store_two_files 0 2) key_t.CURSOR_DOWN) ∨
      ((key_t.CURSOR_DOWN = key_t.CURSOR_UP ∨ key_t.CURSOR_DOWN = key_t.PAGE_UP) ∧
        (dispatch 3 (at_view store_two_files 0 2) key_t.CURSOR_DOWN).index = 0 ∧
        ((dispatch 3 (at_view store_two_files 0 2) key_t.CURSOR_DOWN).cursor = 0 ∨
          (dispatch 3 (at_view store_two_files 0 2) key_t.CURSOR_DOWN).cursor = 3 - 1)) :=
  cursor_on_match_line 3 (at_view store_two_files 0 2) key_t.CURSOR_DOWN (by decide)
    (by decide) ⟨by decide, by decide, by decide⟩

/-! ## The view stays in bounds -/

theorem page_down_ok (P : Int) (d : data_t) (hg : grouped d) (hP : 2 ≤ P)
    (hal : P ∣ d.index) (h0 : 0 ≤ d.index) : view_ok P (page_down P d) := by
  obtain ⟨hline, hc0, hcP, hi0, hiM, hor⟩ := page_down_lands P d hg (by omega) h0
  have hM := max_index_eq_spec P d (by omega) (by have := hg.1; omega)
  have hMd := maxOffset_spec_dvd d.nbentry P
  obtain ⟨_, hlt, _⟩ := hline
  have hn : (page_down P d).nbentry = d.nbentry := rfl
  refine ⟨?_, hi0, ?_, hc0, hcP hP, ?_⟩
  · rcases hor with h | h
    · rw [h]; exact dvd_add hal (dvd_refl P)
    · rw [h, hM]; exact hMd
  · rw [hn, ← hM]; exact hiM
  · omega

theorem page_up_ok (P : Int) (d : data_t) (hg : grouped d) (hP : 2 ≤ P)
    (hal : P ∣ d.index) (h0 : 0 ≤ d.index) (hM : d.index ≤ maxOffset_spec d.nbentry P) :
    view_ok P (page_up P d) := by
  have hb := maxOffset_spec_bounds d.nbentry P (by omega) hg.1
  have hr0 : 0 ≤ (d.nbentry - 1) % P := Int.emod_nonneg _ (by omega)
  unfold view_ok
  simp only [page_up]
  by_cases hidx : d.index = 0
  · rw [if_pos hidx, if_pos (by omega : d.index - P < 0)]
    simp only [ne_eq, not_true_eq_false, and_false, if_false]
    exact ⟨dvd_zero P, le_refl _, hb.1, le_refl _, by omega, by have := hg.1; omega⟩
  · have hle : P ≤ d.index := Int.le_of_dvd (by omega) hal
    rw [if_neg hidx, if_neg (by omega : ¬ d.index - P < 0)]
    refine ⟨Int.dvd_sub hal (dvd_refl P), by omega, by omega, ?_, ?_, ?_⟩ <;>
      split <;> omega

theorem cursor_down_ok (P : Int) (d : data_t) (hg : grouped d) (hP : 2 ≤ P)
    (hv : view_ok P d) : view_ok P (cursor_down P d) := by
  obtain ⟨hal, h0, hM, hc0, hcP, hsel⟩ := hv
  unfold cursor_down
  by_cases hbot : d.cursor = P - 1
  · rw [if_pos hbot]
    exact page_down_ok P d hg hP hal h0
  · rw [if_neg hbot]
    dsimp only
    generalize hc1 : (if d.cursor + d.index < d.nbentry - 1 then d.cursor + 1 else d.cursor) = c1
    have hb1 : 0 ≤ c1 ∧ d.index + c1 ≤ d.nbentry - 1 := by
      rw [← hc1]; split <;> omega
    rcases is_file_cases d (d.index + c1) with h | h
    · rw [h]
      simp only [ne_eq, not_true_eq_false, if_false]
      split
      · exact page_down_ok P _ (grouped_congr d _ rfl rfl hg) hP hal h0
      · next hle => exact ⟨hal, h0, hM, hb1.1, by show c1 ≤ P - 1; omega, hb1.2⟩
    · rw [h]
      simp only [ne_eq, one_ne_zero, not_false_eq_true, if_true]
      have hn := grouped_next d hg (d.index + c1) (by omega) (by omega) h
      split
      · exact page_down_ok P _ (grouped_congr d _ rfl rfl hg) hP hal h0
      · next hle =>
        exact ⟨hal, h0, hM, by show 0 ≤ c1 + 1; omega, by show c1 + 1 ≤ P - 1; omega,
          by show d.index + (c1 + 1) ≤ d.nbentry - 1; omega⟩

theorem cursor_up_ok (P : Int) (d : data_t) (hg : grouped d) (hP : 2 ≤ P)
    (hv : view_ok P d) : view_ok P (cursor_up P d) := by
  obtain ⟨hal, h0, hM, hc0, hcP, hsel⟩ := hv
  unfold cursor_up
  by_cases htop : d.cursor = 0
  · rw [if_pos htop]
    exact page_up_ok P d hg hP hal h0 hM
  · rw [if_neg htop]
    dsimp only
    rw [if_pos (by omega : d.cursor > 0)]
    split
    · split
      · exact page_up_ok P _ (grouped_congr d _ rfl rfl hg) hP hal h0 hM
      · next hge =>
        exact ⟨hal, h0, hM, by show 0 ≤ d.cursor - 1 - 1; omega,
          by show d.cursor - 1 - 1 ≤ P - 1; omega,
          by show d.index + (d.cursor - 1 - 1) ≤ d.nbentry - 1; omega⟩
    · rw [if_neg (by omega)]
      exact ⟨hal, h0, hM, by show 0 ≤ d.cursor - 1; omega,
        by show d.cursor - 1 ≤ P - 1; omega,
        by show d.index + (d.cursor - 1) ≤ d.nbentry - 1; omega⟩

theorem dispatch_ok (P : Int) (d : data_t) (ch : key_t) (hg : grouped d) (hP : 2 ≤ P)
    (hv : view_ok P d) : view_ok P (dispatch P d ch) := by
  cases ch with
  | CURSOR_DOWN => exact cursor_down_ok P d hg hP hv
  | CURSOR_UP => exact cursor_up_ok P d hg hP hv
  | PAGE_DOWN => exact page_down_ok P d hg hP hv.1 hv.2.1
  | PAGE_UP => exact page_up_ok P d hg hP hv.1 hv.2.1 hv.2.2.1

theorem dispatch_seq_ok (P : Int) (keys : List key_t) (d : data_t) (hg : grouped d)
    (hP : 2 ≤ P) (hv : view_ok P d) :
    view_ok P (keys.foldl (dispatch P) d) ∧
      (keys.foldl (dispatch P) d).nbentry = d.nbentry := by
  induction keys generalizing d with
  | nil => exact ⟨hv, rfl⟩
  | cons ch rest ih =>
    rw [List.foldl_cons]
    have hs := dispatch_store P d ch
    have h := ih (dispatch P d ch) (grouped_congr d _ hs.1 hs.2 hg) (dispatch_ok P d ch hg hP hv)
    exact ⟨h.1, h.2.trans hs.1⟩

/-- C10. For every non-empty store of grouped shape and every page size
`P ≥ 2`, every view reached from offset 0, cursor 0 by any sequence of
`cursor_down`, `cursor_up`, `page_down` and `page_up` has an offset that is a
multiple of `P` with `0 ≤ offset ≤ maxOffset`, a cursor with
`0 ≤ cursor ≤ P - 1`, and `offset + cursor ≤ total - 1`. -/
theorem selection_in_bounds (P : Int) (keys : List key_t) (d : data_t) (hg : grouped d)
    (hP : 2 ≤ P) (hindex : d.index = 0) (hcursor : d.cursor = 0) :
    P ∣ (keys.foldl (dispatch P) d).index ∧
      0 ≤ (keys.foldl (dispatch P) d).index ∧
      (keys.foldl (dispatch P) d).index ≤ maxOffset_spec d.nbentry P ∧
      0 ≤ (keys.foldl (dispatch P) d).cursor ∧
      (keys.foldl (dispatch P) d).cursor ≤ P - 1 ∧
      (keys.foldl (dispatch P) d).index + (keys.foldl (dispatch P) d).cursor
        ≤ d.nbentry - 1 := by
  have hb := maxOffset_spec_bounds d.nbentry P (by omega) hg.1
  have hstart : view_ok P d :=
    ⟨by rw [hindex]; exact dvd_zero P, by omega, by omega, by omega, by omega,
      by have := hg.1; omega⟩
  obtain ⟨hv, hn⟩ := dispatch_seq_ok P keys d hg hP hstart
  unfold view_ok at hv
  rw [hn] at hv
  exact hv

/-- Witness for `selection_in_bounds`: the five-entry store, page size 3, the
keys page-down, down, up, page-up, down. -/
theorem selection_in_bounds_witness :
    (3 : Int) ∣ ([key_t.PAGE_DOWN, key_t.CURSOR_DOWN, key_t.CURSOR_UP, key_t.PAGE_UP,
          key_t.CURSOR_DOWN].foldl (dispatch 3) store_two_files).index ∧
      0 ≤ ([key_t.PAGE_DOWN, key_t.CURSOR_DOWN, key_t.CURSOR_UP, key_t.PAGE_UP,
          key_t.CURSOR_DOWN].foldl (dispatch 3) store_two_files).index ∧
      ([key_t.PAGE_DOWN, key_t.CURSOR_DOWN, key_t.CURSOR_UP, key_t.PAGE_UP,
          key_t.CURSOR_DOWN].foldl (dispatch 3) store_two_files).index
        ≤ maxOffset_spec store_two_files.nbentry 3 ∧
      0 ≤ ([key_t.PAGE_DOWN, key_t.CURSOR_DOWN, key_t.CURSOR_UP, key_t.PAGE_UP,
          key_t.CURSOR_DOWN].foldl (dispatch 3) store_two_files).cursor ∧
      ([key_t.PAGE_DOWN, key_t.CURSOR_DOWN, key_t.CURSOR_UP, key_t.PAGE_UP,
          key_t.CURSOR_DOWN].foldl (dispatch 3) store_two_files).cursor ≤ 3 - 1 ∧
      ([key_t.PAGE_DOWN, key_t.CURSOR_DOWN, key_t.CURSOR_UP, key_t.PAGE_UP,
          key_t.CURSOR_DOWN].foldl (dispatch 3) store_two_files).index
        + ([key_t.PAGE_DOWN, key_t.CURSOR_DOWN, key_t.CURSOR_UP, key_t.PAGE_UP,
          key_t.CURSOR_DOWN].foldl (dispatch 3) store_two_files).cursor
        ≤ store_two_files.nbentry - 1 :=
  selection_in_bounds 3 _ store_two_files (by decide) (by decide) (by decide) (by decide)

/-! ## Walker: escaping and eligibility -/

theorem strtok_saved_length (s delim tok saved : cstring)
    (h : strtok s delim = some (tok, saved)) : saved.length < s.length := by
  unfold strtok at h
  split at h
  · exact absurd h (by simp)
  · next c t heq =>
    have hle : (c :: t).length ≤ s.length := by
      rw [← heq]
      exact (List.dropWhile_sublist _).length_le
    have hle2 : ((c :: t).dropWhile (fun c => !delim.contains c)).length ≤ (c :: t).length :=
      (List.dropWhile_sublist _).length_le
    simp only [Option.some.injEq, Prod.mk.injEq] at h
    rw [← h.2, List.length_drop]
    simp only [List.length_cons] at hle hle2
    omega

/-- The loop of `sanitize_filename` does not depend on the fuel once the fuel
exceeds the length of what is left to tokenize; `sanitize_filename` starts it
with more than that. -/
theorem sanitize_loop_fuel (n m : Nat) (saved out : cstring) (hn : saved.length < n)
    (hm : saved.length < m) : sanitize_loop n saved out = sanitize_loop m saved out := by
  induction n generalizing m saved out with
  | zero => omega
  | succ n ih =>
    cases m with
    | zero => omega
    | succ m =>
      unfold sanitize_loop
      cases hs : strtok saved [' '] with
      | none => rfl
      | some p =>
        obtain ⟨tok, saved'⟩ := p
        have hlt := strtok_saved_length saved [' '] tok saved' hs
        have key : ∀ o, sanitize_loop n saved' o = sanitize_loop m saved' o :=
          fun o => ih m saved' o (by omega) (by omega)
        simp only [key]

/-- C8, evaluated on the code. The spec's example works: `my file.c` becomes
`my\ file.c`. A path with two adjacent spaces does not: `strtok` takes the run
of spaces as one separator, so `./my  file.c` becomes `./my\ file.c` (one space
lost), where escaping every space gives `./my\ \ file.c`. -/
theorem sanitize_filename_adjacent_spaces :
    sanitize_filename "my file.c".toList = some "my\\ file.c".toList ∧
      sanitize_filename "./my  file.c".toList = some "./my\\ file.c".toList ∧
      escape_spaces_spec "./my  file.c".toList = "./my\\ \\ file.c".toList ∧
      sanitize_filename "./my  file.c".toList
        ≠ some (escape_spaces_spec "./my  file.c".toList) := by
  decide

theorem mem_foldl_regex (file : cstring) (pregs : List cstring) (log : List cstring) :
    file ∈ pregs.foldl
        (fun s preg => if regexec preg file = 0 then record_parse_file file s else s) log
      ↔ file ∈ log ∨ ∃ preg ∈ pregs, regexec preg file = 0 := by
  induction pregs generalizing log with
  | nil => simp
  | cons p rest ih =>
    rw [List.foldl_cons, ih]
    by_cases hp : regexec p file = 0
    · simp [hp, record_parse_file]
    · simp [hp]

/-- C9 as stated fails: not in raw mode, with the filter `txt`, the regular
file `notes.txt` (its name ends with the filter) is not handed to the matcher:
`lookup_file` still asks for one of the built-in language extensions. -/
theorem file_type_filter_counterexample :
    "notes.txt".toList.drop ("notes.txt".toList.length - "txt".toList.length) = "txt".toList ∧
      lookup_directory_file record_parse_file 0 (fun _ => 0) ".".toList (some "txt".toList)
        ⟨DT_REG, "notes.txt".toList⟩ [] = some [] := by
  decide

/-- C9, amended. Not in raw mode, with a filter no longer than the name, a
regular non-symlink file whose name is not `.`, `..` or `.git` is handed to the
matcher if and only if its name ends with the filter string *and* its path ends
in one of the built-in language extensions (`.c`, `.h`, `.cpp`, `.py`, `.sh`
after a `/` or an alphanumeric character): the filter narrows the extension
set, it does not replace it. `file_path` is the path after space escaping. -/
theorem file_type_filter (is_simlink : cstring → Int) (dir file_type : cstring)
    (ep : dirent) (file_path : cstring)
    (hreg : ep.d_type = DT_REG) (hgood : is_dir_good ep.d_name = 1)
    (hpath : (if ' ' ∈ dir ++ '/' :: ep.d_name then sanitize_filename (dir ++ '/' :: ep.d_name)
              else some (dir ++ '/' :: ep.d_name)) = some file_path)
    (hlink : is_simlink file_path = 0) (hlen : file_type.length ≤ ep.d_name.length) :
    ∃ log, lookup_directory_file record_parse_file 0 is_simlink dir (some file_type) ep []
        = some log ∧
      (file_path ∈ log ↔
        (file_type <:+ ep.d_name ∧ ∃ preg ∈ regex_langages, regexec preg file_path = 0)) := by
  have hnd : ep.d_type &&& DT_DIR = 0 := by rw [hreg]; decide
  unfold lookup_directory_file
  rw [if_pos ⟨hnd, by rw [hgood]; decide⟩]
  dsimp only
  rw [hpath]
  simp only [Option.some_bind, Option.bind_eq_bind]
  rw [if_pos hlink]
  rw [if_pos hlen]
  by_cases hsuf : file_type = ep.d_name.drop (ep.d_name.length - file_type.length)
  · rw [if_pos hsuf]
    refine ⟨_, rfl, ?_⟩
    unfold lookup_file
    rw [if_neg (by decide)]
    rw [mem_foldl_regex]
    have hs : file_type <:+ ep.d_name := List.suffix_iff_eq_drop.mpr hsuf
    simp [hs]
  · rw [if_neg hsuf]
    refine ⟨_, rfl, ?_⟩
    have hs : ¬ file_type <:+ ep.d_name := fun h => hsuf (List.suffix_iff_eq_drop.mp h)
    simp [hs]

/-- Witness for `file_type_filter`: filter `c`, file `./notes.c`. -/
theorem file_type_filter_witness :
    ∃ log, lookup_directory_file record_parse_file 0 (fun _ => 0) ".".toList
        (some "c".toList) ⟨DT_REG, "notes.c".toList⟩ [] = some log ∧
      ("./notes.c".toList ∈ log ↔
        ("c".toList <:+ "notes.c".toList ∧
          ∃ preg ∈ regex_langages, regexec preg "./notes.c".toList = 0)) :=
  file_type_filter (fun _ => 0) ".".toList "c".toList ⟨DT_REG, "notes.c".toList⟩
    "./notes.c".toList (by decide) (by decide) (by decide) (by decide) (by decide)

end Ngp
